import Mathlib

/-!
Verification of the syntax tokenizer and cross-line bracket-matching engine
of a terminal text editor (Rust sources: src/syntax.rs, src/ui/editor.rs).

The embedding works over `List Char`; byte offsets of the Rust code are
recovered through `Char.utf8Size`, so `start`/`end` fields of tokens are
byte offsets exactly as in the source.  Operations of the source that can
panic (palette indexing, byte slicing, the unreachable arm of the
close-bracket handler) are embedded as `Option`-returning functions whose
`none` marks the panic; totality claims are then statements that the result
is always `some`.

Note on character classes: the source uses Rust's Unicode
`char::is_alphanumeric` and `char::is_whitespace`.  The embedding models
them with Lean's ASCII `Char.isAlphanum` / `Char.isWhitespace`; on the
ASCII range both pairs agree, and every claim settled below is insensitive
to the non-ASCII extent of these predicates (the fallback and
reconstruction properties hold for any routing predicate, and all concrete
inputs are ASCII).
-/

/-- Total UTF-8 byte length of a character list (mirrors Rust `str::len`). -/
def utf8Len : List Char → Nat
  | [] => 0
  | c :: cs => c.utf8Size + utf8Len cs

/-- Colors as serialized in the editor's config (`SerializableColor`). -/
inductive RColor where
  | name (s : String)
  | rgb (r g b : Nat)
  | indexed (n : Nat)
deriving DecidableEq

/-- A styled span of text: the unit produced for the terminal renderer
(ratatui `Span` restricted to the fg/bg styling this module sets). -/
structure StyledSpan where
  text : List Char
  fg : Option RColor
  bg : Option RColor
deriving DecidableEq

/-- Rust byte-slice prefix `s[..b]`: the characters making up the first `b`
bytes, or `none` when `b` overruns the string or falls inside a character
(the panic of Rust slicing). -/
def byteTake : List Char → Nat → Option (List Char)
  | _, 0 => some []
  | [], _ + 1 => none
  | c :: cs, b + 1 =>
      if c.utf8Size ≤ b + 1 then (byteTake cs (b + 1 - c.utf8Size)).map (c :: ·) else none

/-- Rust byte-slice suffix `s[a..]`, `none` on the slicing panic. -/
def byteDrop : List Char → Nat → Option (List Char)
  | l, 0 => some l
  | [], _ + 1 => none
  | c :: cs, a + 1 =>
      if c.utf8Size ≤ a + 1 then byteDrop cs (a + 1 - c.utf8Size) else none

/-- Rust byte slice `s[a..b]`, `none` on the slicing panic. -/
def byteSlice (l : List Char) (a b : Nat) : Option (List Char) :=
  if a ≤ b then (byteTake l b).bind (fun pre => byteDrop pre a) else none

/-- Rust `palette[i % palette.len()]`: `none` models the panic (remainder by
zero / out-of-bounds indexing) that an empty palette would cause. -/
def paletteIdx {α : Type} (colors : List α) (i : Nat) : Option α :=
  if colors.length = 0 then none else colors.get? (i % colors.length)

/-- `Option`-valued map over a list, `none` as soon as one element fails
(the shape of the source's fallible per-element loops). -/
def optMap {α β : Type} (f : α → Option β) : List α → Option (List β)
  | [] => some []
  | a :: l =>
      match f a with
      | none => none
      | some b => (optMap f l).map (fun bs => b :: bs)

/-! ## Indent analyzer (src/syntax.rs) -/

/-- `count_leading_spaces`: counts the run of literal spaces at the start of
the line (Rust: `line.chars().take_while(|&ch| ch == ' ').count()`). -/
def count_leading_spaces (line : List Char) : Nat :=
  (line.takeWhile (fun ch => ch = ' ')).length

/-- `INDENT_SPACES`: the precomputed four-space string the source pushes for
every full indent block. -/
def INDENT_SPACES : List Char := [' ', ' ', ' ', ' ']

/-- `create_indent_spans`: one background-colored `INDENT_SPACES` span per
full `indent_width` block of the leading-space run, cycling through
`indent_colors`, plus an unstyled remainder span.  `none` models the panics
of `indent_colors[i % len]` on an empty palette and of the byte slice
`line[full * indent_width..space_count]`. -/
def create_indent_spans (line : List Char) (indent_width : Nat)
    (indent_colors : List RColor) : Option (List StyledSpan) :=
  let space_count := count_leading_spaces line
  if indent_width = 0 ∨ space_count = 0 then some []
  else
    let full_indents := space_count / indent_width
    let remaining_spaces := space_count % indent_width
    match optMap (fun i => (paletteIdx indent_colors i).map
        (fun col => StyledSpan.mk INDENT_SPACES none (some col)))
        (List.range full_indents) with
    | none => none
    | some fullSpans =>
        if remaining_spaces > 0 then
          match byteSlice line (full_indents * indent_width) space_count with
          | none => none
          | some txt => some (fullSpans ++ [StyledSpan.mk txt none none])
        else some fullSpans

/-! ## Token data model (src/syntax.rs) -/

/-- `TokenType`.  Renamed constructors (Lean keywords / reserved words):
`MacroCall` is the source's `Macro`, `TypeIdent` is the source's `Type`. -/
inductive TokenType where
  | Keyword
  | String
  | Number
  | Comment
  | Function
  | MacroCall
  | TypeIdent
  | Identifier
  | Operator
  | Symbol
  | Whitespace
  | Bracket (level : Nat) (is_matched : Bool)
deriving DecidableEq

/-- `Token`: content plus byte offsets within the post-indent line content.
`endPos` is the source's `end` field (a Lean keyword). -/
structure Token where
  content : List Char
  tokenType : TokenType
  start : Nat
  endPos : Nat
deriving DecidableEq

/-- `BracketState`: stack of currently open brackets, each
`(character, line, column)`.  The innermost bracket (Rust `Vec::last`) is
the head of the list. -/
structure BracketState where
  stack : List (Char × Nat × Nat)
deriving DecidableEq

def BracketState.new : BracketState := ⟨[]⟩

/-- The keyword set (`RUST_KEYWORDS`), as character lists. -/
def RUST_KEYWORDS : List (List Char) :=
  [ "as", "break", "const", "continue", "crate", "else", "enum", "extern",
    "false", "fn", "for", "if", "impl", "in", "let", "loop", "match", "mod",
    "move", "mut", "pub", "ref", "return", "self", "Self", "static",
    "struct", "super", "trait", "true", "type", "unsafe", "use", "where",
    "while", "async", "await", "dyn" ].map String.data

/-- Rust `char::is_alphanumeric`, modelled on the ASCII range. -/
def rustIsAlphanumeric (c : Char) : Bool := c.isAlphanum

/-- Rust `char::is_whitespace`, modelled on the ASCII range. -/
def rustIsWhitespace (c : Char) : Bool := c.isWhitespace

/-- A character of an identifier run: alphanumeric or underscore. -/
def isWordChar (c : Char) : Bool := rustIsAlphanumeric c || c = '_'

/-- `classify_word`: keyword, else Function when the next character is `(`,
else Type when the first character is ASCII uppercase, else Identifier. -/
def classify_word (word : List Char) (nextChar : Option Char) : TokenType :=
  if RUST_KEYWORDS.contains word then TokenType.Keyword
  else if nextChar = some '(' then TokenType.Function
  else if (word.head?.map Char.isUpper).getD false then TokenType.TypeIdent
  else TokenType.Identifier

/-! ## The single-line tokenizer (struct `Tokenizer`, src/syntax.rs)

Each `tokenize_*` helper receives the current character `c` (already peeked
but not consumed), the remaining characters `cs` after it, and the byte
offset `pos` of `c`; it returns the produced token together with the
remaining characters after the token.  A token's `content` is exactly the
run of characters the source function consumes, its `endPos` the byte
offset at which the source leaves the iterator (for run-style tokens the
source reads that offset from the next `peek`, which is `pos` plus the
UTF-8 length of the consumed run). -/

/-- The escape-aware scan of `tokenize_quoted_string`'s `take_while`
closure: first component is the consumed run, second the rest (beginning
with the unescaped closing quote, if one was found).  The `Bool` is the
`escaped` flag. -/
def scanString (quote : Char) : Bool → List Char → List Char × List Char
  | _, [] => ([], [])
  | true, c :: cs =>
      let r := scanString quote false cs
      (c :: r.1, r.2)
  | false, c :: cs =>
      if c = '\\' then
        let r := scanString quote true cs
        (c :: r.1, r.2)
      else if c = quote then ([], c :: cs)
      else
        let r := scanString quote false cs
        (c :: r.1, r.2)

/-- `tokenize_comment`: consumes to end of line. -/
def tokenize_comment (pos : Nat) (c : Char) (cs : List Char) : Token × List Char :=
  (⟨c :: cs, TokenType.Comment, pos, pos + utf8Len (c :: cs)⟩, [])

/-- `tokenize_quoted_string`: opening quote, escape-aware body, then one
more character (the closing quote) if any remains; unterminated strings
consume to end of line. -/
def tokenize_quoted_string (pos : Nat) (quote : Char) (c : Char) (cs : List Char) :
    Token × List Char :=
  let r := scanString quote false cs
  match r.2 with
  | [] =>
      let content := c :: r.1
      (⟨content, TokenType.String, pos, pos + utf8Len content⟩, [])
  | d :: ds =>
      let content := c :: r.1 ++ [d]
      (⟨content, TokenType.String, pos, pos + utf8Len content⟩, ds)

/-- `tokenize_char_literal_or_lifetime`: a lifetime-style identifier when a
word character follows the apostrophe and the character after that is not
another apostrophe; otherwise an escape-aware character literal. -/
def tokenize_char_literal_or_lifetime (pos : Nat) (c : Char) (cs : List Char) :
    Token × List Char :=
  match cs with
  | c1 :: cs2 =>
      if isWordChar c1 && (match cs2 with | [] => true | c2 :: _ => decide (c2 ≠ '\'')) then
        let run := (c1 :: cs2).takeWhile isWordChar
        let content := c :: run
        (⟨content, TokenType.Identifier, pos, pos + utf8Len content⟩,
          (c1 :: cs2).dropWhile isWordChar)
      else tokenize_quoted_string pos '\'' c (c1 :: cs2)
  | [] => tokenize_quoted_string pos '\'' c []

/-- `tokenize_open_bracket`: push `(char, line, column_offset + start)` and
emit a matched bracket token at the pre-push depth. -/
def tokenize_open_bracket (lineIdx colOff pos : Nat) (st : BracketState) (c : Char) :
    Token × BracketState :=
  let level := st.stack.length
  let col := colOff + pos
  (⟨[c], TokenType.Bracket level true, pos, pos + 1⟩, ⟨(c, lineIdx, col) :: st.stack⟩)

/-- The `expected_open` match of `tokenize_close_bracket`; `none` is the
source's `unreachable!()` arm. -/
def expected_open : Char → Option Char
  | ')' => some '('
  | ']' => some '['
  | '}' => some '{'
  | _ => none

/-- `tokenize_close_bracket`: pop and mark matched when the stack's top
holds the expected opener, otherwise leave the stack unchanged and mark
unmatched; `none` is the `unreachable!()` panic. -/
def tokenize_close_bracket (pos : Nat) (st : BracketState) (c : Char) :
    Option (Token × BracketState) :=
  match expected_open c with
  | none => none
  | some exp =>
      match st.stack with
      | (b, l, col) :: tl =>
          if b = exp then
            some (⟨[c], TokenType.Bracket tl.length true, pos, pos + 1⟩, ⟨tl⟩)
          else
            some (⟨[c], TokenType.Bracket ((b, l, col) :: tl).length false, pos, pos + 1⟩, st)
      | [] => some (⟨[c], TokenType.Bracket 0 false, pos, pos + 1⟩, st)

/-- `tokenize_number`: a run of ASCII digits. -/
def tokenize_number (pos : Nat) (c : Char) (cs : List Char) : Token × List Char :=
  let run := (c :: cs).takeWhile Char.isDigit
  (⟨run, TokenType.Number, pos, pos + utf8Len run⟩, (c :: cs).dropWhile Char.isDigit)

/-- `tokenize_identifier`: a word run classified by `classify_word`; when
the character directly after the run is `!` it is consumed into the token
and the classification is overridden to Macro. -/
def tokenize_identifier (pos : Nat) (c : Char) (cs : List Char) : Token × List Char :=
  let run := (c :: cs).takeWhile isWordChar
  let rest := (c :: cs).dropWhile isWordChar
  let tt := classify_word run rest.head?
  if rest.head? = some '!' then
    (⟨run ++ ['!'], TokenType.MacroCall, pos, pos + utf8Len run + 1⟩, rest.tail)
  else (⟨run, tt, pos, pos + utf8Len run⟩, rest)

/-- `tokenize_whitespace`: a whitespace run. -/
def tokenize_whitespace (pos : Nat) (c : Char) (cs : List Char) : Token × List Char :=
  let run := (c :: cs).takeWhile rustIsWhitespace
  (⟨run, TokenType.Whitespace, pos, pos + utf8Len run⟩, (c :: cs).dropWhile rustIsWhitespace)

/-- `tokenize_operator` at length 2 (the only call site, for `::`). -/
def tokenize_operator (pos : Nat) (c d : Char) (rest : List Char) : Token × List Char :=
  (⟨[c, d], TokenType.Operator, pos, pos + 2⟩, rest)

/-- `tokenize_symbol`: one character, Symbol. -/
def tokenize_symbol (pos : Nat) (c : Char) : Token :=
  ⟨[c], TokenType.Symbol, pos, pos + c.utf8Size⟩

/-- `Tokenizer::next_token`: the priority dispatch over the current
character, in source order.  `none` can only arise from the modelled
`unreachable!()` inside `tokenize_close_bracket`. -/
def nextToken (lineIdx colOff pos : Nat) (st : BracketState) (c : Char) (cs : List Char) :
    Option (Token × BracketState × List Char) :=
  if c = '/' ∧ cs.head? = some '/' then
    let r := tokenize_comment pos c cs
    some (r.1, st, r.2)
  else if c = '"' then
    let r := tokenize_quoted_string pos '"' c cs
    some (r.1, st, r.2)
  else if c = '\'' then
    let r := tokenize_char_literal_or_lifetime pos c cs
    some (r.1, st, r.2)
  else if c = '(' ∨ c = '[' ∨ c = '{' then
    let r := tokenize_open_bracket lineIdx colOff pos st c
    some (r.1, r.2, cs)
  else if c = ')' ∨ c = ']' ∨ c = '}' then
    match tokenize_close_bracket pos st c with
    | none => none
    | some r => some (r.1, r.2, cs)
  else if c.isDigit then
    let r := tokenize_number pos c cs
    some (r.1, st, r.2)
  else if isWordChar c then
    let r := tokenize_identifier pos c cs
    some (r.1, st, r.2)
  else if rustIsWhitespace c then
    let r := tokenize_whitespace pos c cs
    some (r.1, st, r.2)
  else if c = ':' ∧ cs.head? = some ':' then
    let r := tokenize_operator pos c ':' cs.tail
    some (r.1, st, r.2)
  else
    some (tokenize_symbol pos c, st, cs)

/-- `Tokenizer::run`: the scan loop, driven by a fuel that bounds the number
of tokens; every token consumes at least one character, so fuel equal to
the input length never runs out (proved below). -/
def runTokenizerF (lineIdx colOff : Nat) :
    Nat → Nat → BracketState → List Char → Option (List Token × BracketState)
  | _, _, st, [] => some ([], st)
  | 0, _, _, _ :: _ => none
  | fuel + 1, pos, st, c :: cs =>
      match nextToken lineIdx colOff pos st c cs with
      | none => none
      | some (t, st2, rest) =>
          match runTokenizerF lineIdx colOff fuel (pos + utf8Len t.content) st2 rest with
          | none => none
          | some (toks, st3) => some (t :: toks, st3)

/-- `tokenize_with_state`: empty content yields no tokens; otherwise run the
tokenizer from byte offset 0.  Returns the token list together with the
final bracket state (the source mutates the state in place). -/
def tokenize_with_state (content : List Char) (lineIdx colOff : Nat) (st : BracketState) :
    Option (List Token × BracketState) :=
  if content = [] then some ([], st)
  else runTokenizerF lineIdx colOff content.length 0 st content

/-! ## Theme and span conversion (src/config.rs, src/syntax.rs) -/

/-- The syntax-color part of the theme (`SyntaxTheme`); `macroColor` and
`typeColor` are the source's raw-identifier fields `r#macro` / `r#type`. -/
structure SyntaxTheme where
  keyword : RColor
  string : RColor
  number : RColor
  comment : RColor
  function : RColor
  macroColor : RColor
  typeColor : RColor
  identifier : RColor
  operator : RColor
  symbol : RColor
  bracket_colors : List RColor
  unmatched_bracket_fg : RColor
  unmatched_bracket_bg : RColor
deriving DecidableEq

/-- The UI part of the theme, restricted to the field this module reads. -/
structure UiTheme where
  indent_colors : List RColor
deriving DecidableEq

structure Theme where
  syntaxTheme : SyntaxTheme
  ui : UiTheme
deriving DecidableEq

/-- `SyntaxTheme::default()` from src/config.rs. -/
def defaultSyntaxTheme : SyntaxTheme where
  keyword := RColor.name "Yellow"
  string := RColor.name "Green"
  number := RColor.name "Magenta"
  comment := RColor.indexed 244
  function := RColor.name "LightBlue"
  macroColor := RColor.rgb 255 165 0
  typeColor := RColor.name "LightCyan"
  identifier := RColor.name "White"
  operator := RColor.name "Yellow"
  symbol := RColor.rgb 200 200 200
  bracket_colors :=
    [ RColor.name "White", RColor.rgb 255 100 100, RColor.rgb 100 255 100,
      RColor.rgb 100 100 255, RColor.rgb 255 255 100, RColor.rgb 255 100 255,
      RColor.rgb 100 255 255, RColor.rgb 255 200 100 ]
  unmatched_bracket_fg := RColor.name "Red"
  unmatched_bracket_bg := RColor.rgb 80 0 0

/-- `UiTheme::default()` from src/config.rs (the `indent_colors` field). -/
def defaultUiTheme : UiTheme where
  indent_colors :=
    [ RColor.rgb 60 50 50, RColor.rgb 50 60 50, RColor.rgb 50 50 60,
      RColor.rgb 60 60 50, RColor.rgb 60 50 60, RColor.rgb 50 60 60,
      RColor.rgb 55 55 55, RColor.rgb 65 55 50 ]

def defaultTheme : Theme := ⟨defaultSyntaxTheme, defaultUiTheme⟩

/-- `token_to_span`: a fixed foreground per token kind; bracket tokens take
`bracket_colors[level % len]` (`none` models the indexing panic on an empty
palette) and unmatched brackets override both foreground and background. -/
def token_to_span (t : Token) (theme : SyntaxTheme) : Option StyledSpan :=
  match t.tokenType with
  | TokenType.Keyword => some ⟨t.content, some theme.keyword, none⟩
  | TokenType.String => some ⟨t.content, some theme.string, none⟩
  | TokenType.Number => some ⟨t.content, some theme.number, none⟩
  | TokenType.Comment => some ⟨t.content, some theme.comment, none⟩
  | TokenType.Function => some ⟨t.content, some theme.function, none⟩
  | TokenType.MacroCall => some ⟨t.content, some theme.macroColor, none⟩
  | TokenType.TypeIdent => some ⟨t.content, some theme.typeColor, none⟩
  | TokenType.Identifier => some ⟨t.content, some theme.identifier, none⟩
  | TokenType.Operator => some ⟨t.content, some theme.operator, none⟩
  | TokenType.Symbol => some ⟨t.content, some theme.symbol, none⟩
  | TokenType.Whitespace => some ⟨t.content, none, none⟩
  | TokenType.Bracket level im =>
      match paletteIdx theme.bracket_colors level with
      | none => none
      | some col =>
          if im then some ⟨t.content, some col, none⟩
          else some ⟨t.content, some theme.unmatched_bracket_fg,
                     some theme.unmatched_bracket_bg⟩

/-- The per-token styling step of `highlight_syntax_with_state`: the span
from `token_to_span`, with the unmatched override applied when the bracket
is locally unmatched or its absolute position is in the unmatched set. -/
def spanForToken (theme : SyntaxTheme) (line_idx space_count : Nat)
    (unmatched : List (Nat × Nat)) (t : Token) : Option StyledSpan :=
  match token_to_span t theme with
  | none => none
  | some base =>
      match t.tokenType with
      | TokenType.Bracket _ im =>
          if !im || unmatched.contains (line_idx, space_count + t.start) then
            some ⟨t.content, some theme.unmatched_bracket_fg,
                  some theme.unmatched_bracket_bg⟩
          else some base
      | _ => some base

/-- `highlight_syntax_with_state`: empty line yields one empty span; else
indent spans, then the tokens of the indent-stripped content converted to
styled spans with the unmatched-position override.  Returns the spans and
the bracket state after the line (the source mutates it in place); `none`
models the byte-slicing / palette panics of the callees. -/
def highlight_syntax_with_state (line_str : List Char) (line_idx indent_width : Nat)
    (bracket_state : BracketState) (theme : Theme)
    (unmatched_brackets : List (Nat × Nat)) :
    Option (List StyledSpan × BracketState) :=
  if line_str = [] then some ([⟨[], none, none⟩], bracket_state)
  else
    match create_indent_spans line_str indent_width theme.ui.indent_colors with
    | none => none
    | some indentSpans =>
        let space_count := count_leading_spaces line_str
        match byteDrop line_str space_count with
        | none => none
        | some content_part =>
            if content_part = [] then some (indentSpans, bracket_state)
            else
              match tokenize_with_state content_part line_idx space_count bracket_state with
              | none => none
              | some (tokens, st2) =>
                  match optMap (spanForToken theme.syntaxTheme line_idx space_count
                      unmatched_brackets) tokens with
                  | none => none
                  | some tokSpans => some (indentSpans ++ tokSpans, st2)

/-! ## The whole-buffer scanner (draw_editor_pane, src/ui/editor.rs)

The first pass over the buffer: thread one running `BracketState` through
every line, cache a clone of the state after each line (slot 0 holds the
empty start state), collect the positions of locally-unmatched closing
brackets, and after the last line add the positions of every entry still on
the stack.  `lineTokens` records the token list each line produced during
the sequential scan (the scan consumes them on the fly; recording them lets
the replay claims compare against the scan's own output). -/

/-- Is this token an unmatched closing bracket as tested by the scan loop
(`is_matched: false` and content `)`, `]` or `}`)? -/
def isUnmatchedClose (t : Token) : Bool :=
  match t.tokenType with
  | TokenType.Bracket _ false =>
      t.content = [')'] || t.content = [']'] || t.content = ['}']
  | _ => false

/-- The unmatched positions one line contributes during the scan. -/
def lineUnmatched (i space_count : Nat) (toks : List Token) : List (Nat × Nat) :=
  (toks.filter isUnmatchedClose).map (fun t => (i, space_count + t.start))

structure ScanResult where
  lineTokens : List (List Token)
  states : List BracketState
  final : BracketState
  unmatched : List (Nat × Nat)
deriving DecidableEq

/-- The scan loop body over the remaining lines, `i` the index of the first
of them and `st` the running state on entry. -/
def scanLines : Nat → BracketState → List (List Char) → Option ScanResult
  | _, st, [] => some ⟨[], [], st, []⟩
  | i, st, line :: rest =>
      let sc := count_leading_spaces line
      match byteDrop line sc with
      | none => none
      | some content_part =>
          match tokenize_with_state content_part i sc st with
          | none => none
          | some (toks, st2) =>
              match scanLines (i + 1) st2 rest with
              | none => none
              | some r =>
                  some ⟨toks :: r.lineTokens, st2 :: r.states, r.final,
                        lineUnmatched i sc toks ++ r.unmatched⟩

/-- The whole-buffer scan: empty start state cached in slot 0, then the
per-line loop, then the leftover stack entries added to the unmatched set. -/
def scanBuffer (buffer : List (List Char)) : Option ScanResult :=
  match scanLines 0 BracketState.new buffer with
  | none => none
  | some r =>
      some ⟨r.lineTokens, BracketState.new :: r.states, r.final,
            r.unmatched ++ r.final.stack.map (fun e => (e.2.1, e.2.2))⟩

/-- Total wrapper around `tokenize_with_state` (which is proved below to
never return `none`); used to state the scan's replay properties. -/
def tokenizeT (content : List Char) (lineIdx colOff : Nat) (st : BracketState) :
    List Token × BracketState :=
  (tokenize_with_state content lineIdx colOff st).getD ([], st)

/-- One line of the scan, replayed: tokenize the indent-stripped content of
`line` (as line `i`, column offset its indent) from state `st`. -/
def lineStep (i : Nat) (st : BracketState) (line : List Char) : List Token × BracketState :=
  tokenizeT (line.drop (count_leading_spaces line)) i (count_leading_spaces line) st

/-- The running state after scanning a list of lines starting at index `i`
from state `st` (the declarative recurrence the cached states must obey). -/
def stateAfterLines (i : Nat) (st : BracketState) : List (List Char) → BracketState
  | [] => st
  | line :: rest => stateAfterLines (i + 1) (lineStep i st line).2 rest

/-- The bracket state immediately before line `i` of the buffer is scanned. -/
def stateBefore (buffer : List (List Char)) (i : Nat) : BracketState :=
  stateAfterLines 0 BracketState.new (buffer.take i)

/-! ## Spec-side definitions used to state the claims -/

/-- Does the token carry the `Bracket` kind? -/
def isBracketKind : TokenType → Bool
  | TokenType.Bracket _ _ => true
  | _ => false

/-- Gap-free/non-overlapping chain of tokens covering the byte range
`[p, q)`: the first token starts at `p`, each token spans exactly the UTF-8
length of its content, each next token starts where the previous one ends,
and the chain ends at `q`. -/
def tokensWF (p q : Nat) : List Token → Bool
  | [] => p == q
  | t :: ts => t.start == p && t.endPos == p + utf8Len t.content && tokensWF t.endPos q ts

/-- Closed form of the output of `create_indent_spans` on a non-empty
palette: one four-space (`INDENT_SPACES`) span per full block with the
palette color cycling by block index, then the remainder span. -/
def indentSpansSpec (line : List Char) (indent_width : Nat)
    (palette : List RColor) : List StyledSpan :=
  if indent_width = 0 ∨ count_leading_spaces line = 0 then []
  else
    (List.range (count_leading_spaces line / indent_width)).map
      (fun i => ⟨INDENT_SPACES, none, palette.get? (i % palette.length)⟩)
    ++ (if count_leading_spaces line % indent_width = 0 then []
        else [⟨List.replicate (count_leading_spaces line % indent_width) ' ', none, none⟩])

/-! ## Basic lemmas -/

theorem utf8Len_append (a b : List Char) : utf8Len (a ++ b) = utf8Len a + utf8Len b := by
  induction a with
  | nil => simp [utf8Len]
  | cons c cs ih => simp [utf8Len, ih]; omega

theorem scanString_split (q : Char) : ∀ (e : Bool) (cs : List Char),
    (scanString q e cs).1 ++ (scanString q e cs).2 = cs := by
  intro e cs
  induction cs generalizing e with
  | nil => cases e <;> simp [scanString]
  | cons c cs ih =>
      cases e with
      | true => simpa [scanString] using ih false
      | false =>
          by_cases h1 : c = '\\'
          · simpa [scanString, h1] using ih true
          · by_cases h2 : c = q
            · subst h2
              simp [scanString, h1]
            · simpa [scanString, h1, h2] using ih false

theorem tokenize_quoted_string_spec (pos : Nat) (q c : Char) (cs : List Char) :
    (tokenize_quoted_string pos q c cs).1.content ≠ [] ∧
    (tokenize_quoted_string pos q c cs).1.content ++ (tokenize_quoted_string pos q c cs).2
      = c :: cs ∧
    (tokenize_quoted_string pos q c cs).1.start = pos ∧
    (tokenize_quoted_string pos q c cs).1.endPos
      = pos + utf8Len (tokenize_quoted_string pos q c cs).1.content ∧
    (tokenize_quoted_string pos q c cs).1.tokenType = TokenType.String := by
  have hs := scanString_split q false cs
  unfold tokenize_quoted_string
  cases h : (scanString q false cs).2 with
  | nil =>
      rw [h] at hs
      simp only [List.append_nil] at hs
      simp only [h]
      simp [hs]
  | cons d ds =>
      rw [h] at hs
      simp only [h]
      refine ⟨by simp, ?_, by simp, by simp, by simp⟩
      simp only [List.cons_append, List.append_assoc, List.singleton_append,
        List.nil_append]
      rw [hs]

theorem takeWhile_run_split (p : Char → Bool) (c : Char) (cs : List Char) (h : p c = true) :
    (c :: cs).takeWhile p ≠ [] ∧
    (c :: cs).takeWhile p ++ (c :: cs).dropWhile p = c :: cs := by
  constructor
  · rw [List.takeWhile_cons_of_pos h]
    exact List.cons_ne_nil _ _
  · exact List.takeWhile_append_dropWhile p (c :: cs)

theorem tokenize_char_literal_or_lifetime_spec (pos : Nat) (c : Char) (cs : List Char) :
    (tokenize_char_literal_or_lifetime pos c cs).1.content ≠ [] ∧
    (tokenize_char_literal_or_lifetime pos c cs).1.content
      ++ (tokenize_char_literal_or_lifetime pos c cs).2 = c :: cs ∧
    (tokenize_char_literal_or_lifetime pos c cs).1.start = pos ∧
    (tokenize_char_literal_or_lifetime pos c cs).1.endPos
      = pos + utf8Len (tokenize_char_literal_or_lifetime pos c cs).1.content := by
  cases cs with
  | nil =>
      have h := tokenize_quoted_string_spec pos '\'' c []
      exact ⟨h.1, h.2.1, h.2.2.1, h.2.2.2.1⟩
  | cons c1 cs2 =>
      simp only [tokenize_char_literal_or_lifetime]
      by_cases hcond : (isWordChar c1
          && (match cs2 with | [] => true | c2 :: _ => decide (c2 ≠ '\''))) = true
      · rw [if_pos hcond]
        refine ⟨by simp, ?_, rfl, rfl⟩
        show (c :: List.takeWhile isWordChar (c1 :: cs2))
            ++ List.dropWhile isWordChar (c1 :: cs2) = c :: c1 :: cs2
        rw [List.cons_append, List.takeWhile_append_dropWhile]
      · rw [if_neg hcond]
        have h := tokenize_quoted_string_spec pos '\'' c (c1 :: cs2)
        exact ⟨h.1, h.2.1, h.2.2.1, h.2.2.2.1⟩

theorem tokenize_identifier_spec (pos : Nat) (c : Char) (cs : List Char)
    (hw : isWordChar c = true) :
    (tokenize_identifier pos c cs).1.content ≠ [] ∧
    (tokenize_identifier pos c cs).1.content ++ (tokenize_identifier pos c cs).2 = c :: cs ∧
    (tokenize_identifier pos c cs).1.start = pos ∧
    (tokenize_identifier pos c cs).1.endPos
      = pos + utf8Len (tokenize_identifier pos c cs).1.content := by
  have hrun := takeWhile_run_split isWordChar c cs hw
  have hbang : ('!').utf8Size = 1 := by decide
  unfold tokenize_identifier
  cases hr : List.dropWhile isWordChar (c :: cs) with
  | nil =>
      rw [hr] at hrun
      simp only [List.head?_nil]
      rw [if_neg (by simp)]
      exact ⟨hrun.1, by simpa using hrun.2, rfl, rfl⟩
  | cons r rs =>
      rw [hr] at hrun
      simp only [List.head?_cons]
      by_cases hb : r = '!'
      · subst hb
        rw [if_pos rfl]
        refine ⟨by simp, ?_, rfl, ?_⟩
        · show (List.takeWhile isWordChar (c :: cs) ++ ['!']) ++ rs = c :: cs
          rw [List.append_assoc, List.singleton_append]
          exact hrun.2
        · show pos + utf8Len (List.takeWhile isWordChar (c :: cs)) + 1
            = pos + utf8Len (List.takeWhile isWordChar (c :: cs) ++ ['!'])
          rw [utf8Len_append]
          simp [utf8Len, hbang]
          omega
      · rw [if_neg (by simp [hb])]
        exact ⟨hrun.1, hrun.2, rfl, rfl⟩

theorem tokenize_close_bracket_total (pos : Nat) (st : BracketState) (c : Char)
    (hc : c = ')' ∨ c = ']' ∨ c = '}') :
    ∃ tk st2, tokenize_close_bracket pos st c = some (tk, st2) ∧
      tk.content = [c] ∧ tk.start = pos ∧ tk.endPos = pos + 1 ∧
      isBracketKind tk.tokenType = true := by
  obtain ⟨e, he⟩ : ∃ e, expected_open c = some e := by
    rcases hc with h | h | h <;> subst h <;> exact ⟨_, rfl⟩
  obtain ⟨stk⟩ := st
  unfold tokenize_close_bracket
  rw [he]
  cases stk with
  | nil =>
      exact ⟨⟨[c], TokenType.Bracket 0 false, pos, pos + 1⟩, ⟨[]⟩, rfl, rfl, rfl, rfl, rfl⟩
  | cons hd tl =>
      obtain ⟨b, l, col⟩ := hd
      by_cases hb : b = e
      · subst hb
        refine ⟨⟨[c], TokenType.Bracket tl.length true, pos, pos + 1⟩, ⟨tl⟩,
          ?_, rfl, rfl, rfl, rfl⟩
        simp
      · refine ⟨⟨[c], TokenType.Bracket ((b, l, col) :: tl).length false, pos, pos + 1⟩,
          ⟨(b, l, col) :: tl⟩, ?_, rfl, rfl, rfl, rfl⟩
        simp [hb]

theorem nextToken_spec (lineIdx colOff pos : Nat) (st : BracketState) (c : Char)
    (cs : List Char) :
    ∃ t st2 rest, nextToken lineIdx colOff pos st c cs = some (t, st2, rest) ∧
      t.content ≠ [] ∧ t.content ++ rest = c :: cs ∧ t.start = pos ∧
      t.endPos = pos + utf8Len t.content ∧
      (isBracketKind t.tokenType = false → st2 = st) := by
  unfold nextToken
  by_cases h1 : c = '/' ∧ cs.head? = some '/'
  · rw [if_pos h1]
    exact ⟨_, _, _, rfl, List.cons_ne_nil _ _, List.append_nil _, rfl, rfl, fun _ => rfl⟩
  rw [if_neg h1]
  by_cases h2 : c = '"'
  · rw [if_pos h2]
    have h := tokenize_quoted_string_spec pos '"' c cs
    exact ⟨_, _, _, rfl, h.1, h.2.1, h.2.2.1, h.2.2.2.1, fun _ => rfl⟩
  rw [if_neg h2]
  by_cases h3 : c = '\''
  · rw [if_pos h3]
    have h := tokenize_char_literal_or_lifetime_spec pos c cs
    exact ⟨_, _, _, rfl, h.1, h.2.1, h.2.2.1, h.2.2.2, fun _ => rfl⟩
  rw [if_neg h3]
  by_cases h4 : c = '(' ∨ c = '[' ∨ c = '{'
  · rw [if_pos h4]
    have hsz : utf8Len [c] = 1 := by rcases h4 with h | h | h <;> subst h <;> rfl
    refine ⟨_, _, _, rfl, List.cons_ne_nil _ _, rfl, rfl, ?_, ?_⟩
    · show pos + 1 = pos + utf8Len [c]
      rw [hsz]
    · intro hh
      simp [tokenize_open_bracket, isBracketKind] at hh
  rw [if_neg h4]
  by_cases h5 : c = ')' ∨ c = ']' ∨ c = '}'
  · rw [if_pos h5]
    obtain ⟨tk, st2, heq, hcont, hstart, hend, hkind⟩ :=
      tokenize_close_bracket_total pos st c h5
    have hsz : utf8Len [c] = 1 := by rcases h5 with h | h | h <;> subst h <;> rfl
    rw [heq]
    refine ⟨tk, st2, cs, rfl, ?_, ?_, hstart, ?_, ?_⟩
    · rw [hcont]
      exact List.cons_ne_nil _ _
    · rw [hcont]
      rfl
    · rw [hend, hcont, hsz]
    · intro hh
      rw [hkind] at hh
      simp at hh
  rw [if_neg h5]
  by_cases h6 : c.isDigit = true
  · rw [if_pos h6]
    have h := takeWhile_run_split Char.isDigit c cs h6
    exact ⟨_, _, _, rfl, h.1, h.2, rfl, rfl, fun _ => rfl⟩
  rw [if_neg h6]
  by_cases h7 : isWordChar c = true
  · rw [if_pos h7]
    have h := tokenize_identifier_spec pos c cs h7
    exact ⟨_, _, _, rfl, h.1, h.2.1, h.2.2.1, h.2.2.2, fun _ => rfl⟩
  rw [if_neg h7]
  by_cases h8 : rustIsWhitespace c = true
  · rw [if_pos h8]
    have h := takeWhile_run_split rustIsWhitespace c cs h8
    exact ⟨_, _, _, rfl, h.1, h.2, rfl, rfl, fun _ => rfl⟩
  rw [if_neg h8]
  by_cases h9 : c = ':' ∧ cs.head? = some ':'
  · rw [if_pos h9]
    obtain ⟨hc, hh⟩ := h9
    subst hc
    cases cs with
    | nil => simp at hh
    | cons d ds =>
        simp only [List.head?_cons, Option.some_inj] at hh
        subst hh
        exact ⟨_, _, _, rfl, List.cons_ne_nil _ _, rfl, rfl, rfl, fun _ => rfl⟩
  rw [if_neg h9]
  exact ⟨_, _, _, rfl, List.cons_ne_nil _ _, rfl, rfl, rfl, fun _ => rfl⟩

theorem runTokenizerF_spec (lineIdx colOff : Nat) :
    ∀ (fuel : Nat) (cs : List Char), cs.length ≤ fuel → ∀ (pos : Nat) (st : BracketState),
    ∃ toks st2, runTokenizerF lineIdx colOff fuel pos st cs = some (toks, st2) ∧
      (toks.map Token.content).flatten = cs ∧
      tokensWF pos (pos + utf8Len cs) toks = true ∧
      ((∀ t ∈ toks, isBracketKind t.tokenType = false) → st2 = st) := by
  intro fuel
  induction fuel with
  | zero =>
      intro cs hlen pos st
      have hnil : cs = [] := List.length_eq_zero.mp (Nat.le_zero.mp hlen)
      subst hnil
      exact ⟨[], st, rfl, rfl, by simp [tokensWF, utf8Len], fun _ => rfl⟩
  | succ fuel ih =>
      intro cs hlen pos st
      cases cs with
      | nil => exact ⟨[], st, rfl, rfl, by simp [tokensWF, utf8Len], fun _ => rfl⟩
      | cons c cs' =>
          obtain ⟨t, st2, rest, heq, hne, hsplit, hstart, hend, hframe⟩ :=
            nextToken_spec lineIdx colOff pos st c cs'
          have hlen2 : rest.length ≤ fuel := by
            have hl := congrArg List.length hsplit
            simp only [List.length_append, List.length_cons] at hl
            have h1 : 1 ≤ t.content.length := by
              cases hcc : t.content with
              | nil => exact absurd hcc hne
              | cons x xs => simp
            simp only [List.length_cons] at hlen
            omega
          obtain ⟨toks, st3, heq2, hjoin, hwf, hframe2⟩ :=
            ih rest hlen2 (pos + utf8Len t.content) st2
          have harith : pos + utf8Len t.content + utf8Len rest = pos + utf8Len (c :: cs') := by
            rw [← hsplit, utf8Len_append]
            omega
          refine ⟨t :: toks, st3, ?_, ?_, ?_, ?_⟩
          · simp only [runTokenizerF, heq, heq2]
          · simp only [List.map_cons, List.flatten_cons, hjoin]
            exact hsplit
          · simp only [tokensWF, Bool.and_eq_true, beq_iff_eq]
            refine ⟨⟨hstart, hend⟩, ?_⟩
            rw [harith] at hwf
            rw [hend]
            exact hwf
          · intro hall
            have ha := hframe2 (fun t' ht' => hall t' (List.mem_cons_of_mem _ ht'))
            have hb := hframe (hall t (List.mem_cons_self _ _))
            rw [ha, hb]

theorem tokenize_with_state_spec (content : List Char) (lineIdx colOff : Nat)
    (st : BracketState) :
    ∃ toks st2, tokenize_with_state content lineIdx colOff st = some (toks, st2) ∧
      (toks.map Token.content).flatten = content ∧
      tokensWF 0 (utf8Len content) toks = true ∧
      ((∀ t ∈ toks, isBracketKind t.tokenType = false) → st2 = st) ∧
      (content = [] → toks = []) := by
  unfold tokenize_with_state
  by_cases hc : content = []
  · rw [if_pos hc]
    subst hc
    exact ⟨[], st, rfl, rfl, by simp [tokensWF, utf8Len], fun _ => rfl, fun _ => rfl⟩
  · rw [if_neg hc]
    obtain ⟨toks, st2, heq, hjoin, hwf, hframe⟩ :=
      runTokenizerF_spec lineIdx colOff content.length content (le_refl _) 0 st
    exact ⟨toks, st2, heq, hjoin, by simpa using hwf, hframe, fun h => absurd h hc⟩

theorem tokenize_eq_some (content : List Char) (lineIdx colOff : Nat) (st : BracketState) :
    tokenize_with_state content lineIdx colOff st
      = some (tokenizeT content lineIdx colOff st) := by
  obtain ⟨toks, st2, heq, -, -, -, -⟩ := tokenize_with_state_spec content lineIdx colOff st
  unfold tokenizeT
  rw [heq]
  rfl

theorem tokensWF_props : ∀ (ts : List Token) (p q : Nat), tokensWF p q ts = true →
    (ts.head?.map Token.start).getD p = p ∧
    List.Chain' (fun a b => b.start = a.endPos) ts ∧
    (∀ t ∈ ts, t.endPos = t.start + utf8Len t.content) ∧
    (ts.getLast?.map Token.endPos).getD q = q := by
  intro ts
  induction ts with
  | nil =>
      intro p q h
      simp only [tokensWF, beq_iff_eq] at h
      subst h
      simp
  | cons t ts ih =>
      intro p q h
      simp only [tokensWF, Bool.and_eq_true, beq_iff_eq] at h
      obtain ⟨⟨hstart, hend⟩, hrest⟩ := h
      obtain ⟨ihhead, ihchain, ihall, ihlast⟩ := ih t.endPos q hrest
      refine ⟨by simp [hstart], ?_, ?_, ?_⟩
      · rw [List.chain'_cons']
        refine ⟨?_, ihchain⟩
        intro b hb
        cases hts : ts with
        | nil => rw [hts] at hb; simp at hb
        | cons u us =>
            rw [hts] at hb
            simp only [List.head?_cons, Option.mem_def, Option.some_inj] at hb
            subst hb
            rw [hts] at ihhead
            simpa using ihhead
      · intro x hx
        rcases List.mem_cons.mp hx with hx | hx
        · subst hx
          rw [hend, hstart]
        · exact ihall x hx
      · cases hts : ts with
        | nil =>
            rw [hts] at hrest
            simp only [tokensWF, beq_iff_eq] at hrest
            simp [hrest]
        | cons u us =>
            rw [hts] at ihlast
            simpa [List.getLast?_cons_cons] using ihlast

theorem count_leading_spaces_cons (c : Char) (cs : List Char) :
    count_leading_spaces (c :: cs) =
      if c = ' ' then count_leading_spaces cs + 1 else 0 := by
  by_cases h : c = ' '
  · simp [count_leading_spaces, List.takeWhile_cons, h]
  · simp [count_leading_spaces, List.takeWhile_cons, h]

theorem byteDrop_leading : ∀ (n : Nat) (line : List Char),
    n ≤ count_leading_spaces line → byteDrop line n = some (line.drop n) := by
  intro n
  induction n with
  | zero => intro line h; simp [byteDrop]
  | succ n ih =>
      intro line h
      cases line with
      | nil => simp [count_leading_spaces] at h
      | cons c cs =>
          have hc : c = ' ' := by
            by_cases hc : c = ' '
            · exact hc
            · rw [count_leading_spaces_cons, if_neg hc] at h
              omega
          subst hc
          rw [count_leading_spaces_cons, if_pos rfl] at h
          have hsz : (' ').utf8Size = 1 := by decide
          simp only [byteDrop, hsz]
          rw [if_pos (by omega)]
          simpa using ih cs (by omega)

theorem byteTake_leading : ∀ (n : Nat) (line : List Char),
    n ≤ count_leading_spaces line → byteTake line n = some (line.take n) := by
  intro n
  induction n with
  | zero => intro line h; simp [byteTake]
  | succ n ih =>
      intro line h
      cases line with
      | nil => simp [count_leading_spaces] at h
      | cons c cs =>
          have hc : c = ' ' := by
            by_cases hc : c = ' '
            · exact hc
            · rw [count_leading_spaces_cons, if_neg hc] at h
              omega
          subst hc
          rw [count_leading_spaces_cons, if_pos rfl] at h
          have hsz : (' ').utf8Size = 1 := by decide
          simp only [byteTake, hsz]
          rw [if_pos (by omega)]
          have := ih cs (by omega)
          simp only [Nat.add_sub_cancel] at this ⊢
          rw [this]
          rfl

theorem take_leading_replicate : ∀ (n : Nat) (line : List Char),
    n ≤ count_leading_spaces line → line.take n = List.replicate n ' ' := by
  intro n
  induction n with
  | zero => intro line h; simp
  | succ n ih =>
      intro line h
      cases line with
      | nil => simp [count_leading_spaces] at h
      | cons c cs =>
          have hc : c = ' ' := by
            by_cases hc : c = ' '
            · exact hc
            · rw [count_leading_spaces_cons, if_neg hc] at h
              omega
          subst hc
          rw [count_leading_spaces_cons, if_pos rfl] at h
          simp only [List.take_succ_cons, List.replicate]
          rw [ih cs (by omega)]

theorem count_leading_take (n : Nat) (line : List Char)
    (h : n ≤ count_leading_spaces line) :
    n ≤ count_leading_spaces (line.take n) := by
  rw [take_leading_replicate n line h]
  induction n with
  | zero => simp
  | succ n ih =>
      rw [List.replicate_succ, count_leading_spaces_cons, if_pos rfl]
      omega

theorem byteSlice_leading (line : List Char) (a b : Nat) (hab : a ≤ b)
    (hb : b ≤ count_leading_spaces line) :
    byteSlice line a b = some (List.replicate (b - a) ' ') := by
  unfold byteSlice
  rw [if_pos hab, byteTake_leading b line hb]
  show byteDrop (line.take b) a = _
  rw [byteDrop_leading a (line.take b) (le_trans hab (count_leading_take b line hb)),
    take_leading_replicate b line hb, List.drop_replicate]

theorem mem_lineUnmatched (p : Nat × Nat) (i sc : Nat) (toks : List Token) :
    p ∈ lineUnmatched i sc toks ↔
      ∃ t, t ∈ toks ∧ isUnmatchedClose t = true ∧ p = (i, sc + t.start) := by
  simp only [lineUnmatched, List.mem_map, List.mem_filter]
  constructor
  · rintro ⟨t, ⟨ht, hu⟩, hp⟩
    exact ⟨t, ht, hu, hp.symm⟩
  · rintro ⟨t, ht, hu, hp⟩
    exact ⟨t, ⟨ht, hu⟩, hp.symm⟩

theorem scanLines_spec : ∀ (buffer : List (List Char)) (i : Nat) (st : BracketState),
    ∃ r, scanLines i st buffer = some r ∧
      r.final = stateAfterLines i st buffer ∧
      r.states.length = buffer.length ∧
      r.lineTokens.length = buffer.length ∧
      (∀ j line, buffer.get? j = some line →
         r.states.get? j = some (stateAfterLines i st (buffer.take (j + 1))) ∧
         r.lineTokens.get? j
           = some (lineStep (i + j) (stateAfterLines i st (buffer.take j)) line).1) ∧
      (∀ p, p ∈ r.unmatched ↔ ∃ j line, buffer.get? j = some line ∧
         ∃ t, t ∈ (lineStep (i + j) (stateAfterLines i st (buffer.take j)) line).1 ∧
           isUnmatchedClose t = true ∧
           p = (i + j, count_leading_spaces line + t.start)) := by
  intro buffer
  induction buffer with
  | nil =>
      intro i st
      refine ⟨⟨[], [], st, []⟩, rfl, rfl, rfl, rfl, ?_, ?_⟩
      · intro j line hj
        simp at hj
      · intro p
        simp
  | cons line rest ih =>
      intro i st
      have hsc : byteDrop line (count_leading_spaces line)
          = some (line.drop (count_leading_spaces line)) :=
        byteDrop_leading _ _ (le_refl _)
      have htok := tokenize_eq_some (line.drop (count_leading_spaces line)) i
        (count_leading_spaces line) st
      obtain ⟨r2, heq2, hfin2, hsl2, hll2, hget2, hmem2⟩ :=
        ih (i + 1) (lineStep i st line).2
      refine ⟨⟨(lineStep i st line).1 :: r2.lineTokens, (lineStep i st line).2 :: r2.states,
        r2.final,
        lineUnmatched i (count_leading_spaces line) (lineStep i st line).1 ++ r2.unmatched⟩,
        ?_, ?_, ?_, ?_, ?_, ?_⟩
      · simp only [lineStep] at heq2
        simp only [scanLines, hsc, htok, lineStep, heq2]
      · simp only [stateAfterLines]
        exact hfin2
      · simp only [List.length_cons, hsl2]
      · simp only [List.length_cons, hll2]
      · intro j line' hj
        cases j with
        | zero =>
            simp only [List.get?_cons_zero, Option.some_inj] at hj
            subst hj
            constructor
            · simp only [List.get?_cons_zero, Option.some_inj]
              simp only [List.take_succ_cons, List.take_zero, stateAfterLines]
            · simp only [List.get?_cons_zero, Option.some_inj, List.take_zero,
                stateAfterLines, Nat.add_zero]
        | succ j =>
            simp only [List.get?_cons_succ] at hj
            obtain ⟨hg1, hg2⟩ := hget2 j line' hj
            constructor
            · simp only [List.get?_cons_succ, List.take_succ_cons, stateAfterLines]
              exact hg1
            · simp only [List.get?_cons_succ, List.take_succ_cons, stateAfterLines]
              have harith : i + (j + 1) = i + 1 + j := by omega
              rw [harith]
              exact hg2
      · intro p
        rw [List.mem_append, mem_lineUnmatched, hmem2]
        constructor
        · rintro (⟨t, ht, hu, hp⟩ | ⟨j, line', hj, t, ht, hu, hp⟩)
          · refine ⟨0, line, rfl, t, ?_, hu, ?_⟩
            · simpa [List.take_zero, stateAfterLines, Nat.add_zero] using ht
            · simpa [Nat.add_zero] using hp
          · refine ⟨j + 1, line', by simpa using hj, t, ?_, hu, ?_⟩
            · simp only [List.take_succ_cons, stateAfterLines]
              have harith : i + (j + 1) = i + 1 + j := by omega
              rw [harith]
              exact ht
            · have harith : i + (j + 1) = i + 1 + j := by omega
              rw [harith]
              exact hp
        · rintro ⟨j, line', hj, t, ht, hu, hp⟩
          cases j with
          | zero =>
              simp only [List.get?_cons_zero, Option.some_inj] at hj
              subst hj
              left
              refine ⟨t, ?_, hu, ?_⟩
              · simpa [List.take_zero, stateAfterLines, Nat.add_zero] using ht
              · simpa [Nat.add_zero] using hp
          | succ j =>
              simp only [List.get?_cons_succ] at hj
              right
              refine ⟨j, line', hj, t, ?_, hu, ?_⟩
              · have harith : i + 1 + j = i + (j + 1) := by omega
                rw [harith]
                simpa [List.take_succ_cons, stateAfterLines] using ht
              · have harith : i + 1 + j = i + (j + 1) := by omega
                rw [harith]
                exact hp

theorem scanBuffer_spec (buffer : List (List Char)) :
    ∃ r, scanBuffer buffer = some r ∧
      r.final = stateBefore buffer buffer.length ∧
      r.states.length = buffer.length + 1 ∧
      r.lineTokens.length = buffer.length ∧
      (∀ i, i ≤ buffer.length → r.states.get? i = some (stateBefore buffer i)) ∧
      (∀ i line, buffer.get? i = some line →
         r.lineTokens.get? i = some (lineStep i (stateBefore buffer i) line).1) ∧
      (∀ p, p ∈ r.unmatched ↔
        ((∃ i line, buffer.get? i = some line ∧
           ∃ t, t ∈ (lineStep i (stateBefore buffer i) line).1 ∧
             isUnmatchedClose t = true ∧ p = (i, count_leading_spaces line + t.start)) ∨
         (∃ e, e ∈ (stateBefore buffer buffer.length).stack ∧ p = (e.2.1, e.2.2)))) := by
  obtain ⟨r2, heq2, hfin2, hsl2, hll2, hget2, hmem2⟩ := scanLines_spec buffer 0 BracketState.new
  have hfinal : r2.final = stateBefore buffer buffer.length := by
    rw [hfin2, stateBefore, List.take_length]
  refine ⟨⟨r2.lineTokens, BracketState.new :: r2.states, r2.final,
      r2.unmatched ++ r2.final.stack.map (fun e => (e.2.1, e.2.2))⟩, ?_, hfinal,
      by simp [hsl2], hll2, ?_, ?_, ?_⟩
  · simp only [scanBuffer, heq2]
  · intro i hi
    cases i with
    | zero =>
        simp only [List.get?_cons_zero, Option.some_inj]
        rfl
    | succ j =>
        simp only [List.get?_cons_succ]
        have hj : j < buffer.length := by omega
        obtain ⟨line, hline⟩ : ∃ line, buffer.get? j = some line := by
          rw [List.get?_eq_get hj]
          exact ⟨_, rfl⟩
        have h := (hget2 j line hline).1
        simpa [stateBefore] using h
  · intro i line hline
    have h := (hget2 i line hline).2
    simpa [stateBefore] using h
  · intro p
    show p ∈ r2.unmatched ++ r2.final.stack.map (fun e => (e.2.1, e.2.2)) ↔ _
    rw [List.mem_append, hmem2]
    constructor
    · rintro (⟨j, line, hj, t, ht, hu, hp⟩ | hmap)
      · left
        refine ⟨j, line, hj, t, ?_, hu, ?_⟩
        · simpa [stateBefore] using ht
        · simpa using hp
      · right
        rw [List.mem_map] at hmap
        obtain ⟨e, he, hp⟩ := hmap
        rw [hfinal] at he
        exact ⟨e, he, hp.symm⟩
    · rintro (⟨j, line, hj, t, ht, hu, hp⟩ | ⟨e, he, hp⟩)
      · left
        refine ⟨j, line, hj, t, ?_, hu, ?_⟩
        · simpa [stateBefore] using ht
        · simpa using hp
      · right
        rw [List.mem_map]
        rw [← hfinal] at he
        exact ⟨e, he, hp.symm⟩

theorem optMap_eq_some {α β : Type} (f : α → Option β) (g : α → β) :
    ∀ (l : List α), (∀ a ∈ l, f a = some (g a)) → optMap f l = some (l.map g) := by
  intro l
  induction l with
  | nil => intro _; rfl
  | cons a l ih =>
      intro h
      simp only [optMap, h a (List.mem_cons_self a l)]
      rw [ih (fun x hx => h x (List.mem_cons_of_mem a hx))]
      rfl

theorem optMap_total {α β : Type} (f : α → Option β) :
    ∀ (l : List α), (∀ a ∈ l, ∃ b, f a = some b) → ∃ bs, optMap f l = some bs := by
  intro l
  induction l with
  | nil => intro _; exact ⟨[], rfl⟩
  | cons a l ih =>
      intro h
      obtain ⟨b, hb⟩ := h a (List.mem_cons_self a l)
      obtain ⟨bs, hbs⟩ := ih (fun x hx => h x (List.mem_cons_of_mem a hx))
      refine ⟨b :: bs, ?_⟩
      simp only [optMap, hb, hbs]
      rfl

theorem paletteIdx_nonempty {α : Type} (colors : List α) (h : colors ≠ []) (i : Nat) :
    ∃ c, paletteIdx colors i = some c ∧ colors.get? (i % colors.length) = some c := by
  have hlen : colors.length ≠ 0 := by simpa [List.length_eq_zero] using h
  unfold paletteIdx
  rw [if_neg hlen]
  have hlt : i % colors.length < colors.length := Nat.mod_lt _ (Nat.pos_of_ne_zero hlen)
  rw [List.get?_eq_get hlt]
  exact ⟨_, rfl, rfl⟩

theorem create_indent_spans_eq (line : List Char) (indent_width : Nat)
    (palette : List RColor) (hp : palette ≠ []) :
    create_indent_spans line indent_width palette
      = some (indentSpansSpec line indent_width palette) := by
  unfold create_indent_spans indentSpansSpec
  by_cases h0 : indent_width = 0 ∨ count_leading_spaces line = 0
  · rw [if_pos h0, if_pos h0]
  · rw [if_neg h0, if_neg h0]
    have hfull : optMap (fun i => (paletteIdx palette i).map
        (fun col => StyledSpan.mk INDENT_SPACES none (some col)))
        (List.range (count_leading_spaces line / indent_width))
        = some ((List.range (count_leading_spaces line / indent_width)).map
            (fun i => ⟨INDENT_SPACES, none, palette.get? (i % palette.length)⟩)) := by
      apply optMap_eq_some
      intro a _
      obtain ⟨c, hc1, hc2⟩ := paletteIdx_nonempty palette hp a
      rw [hc1, hc2]
      rfl
    simp only [hfull]
    by_cases hrem : count_leading_spaces line % indent_width = 0
    · rw [if_neg (by omega : ¬ count_leading_spaces line % indent_width > 0), if_pos hrem]
      simp
    · rw [if_pos (by omega : count_leading_spaces line % indent_width > 0), if_neg hrem]
      rw [byteSlice_leading line (count_leading_spaces line / indent_width * indent_width)
        (count_leading_spaces line) (Nat.div_mul_le_self _ _) (le_refl _)]
      have hmod : count_leading_spaces line
          - count_leading_spaces line / indent_width * indent_width
          = count_leading_spaces line % indent_width := by
        have h1 := Nat.div_add_mod (count_leading_spaces line) indent_width
        have h2 : count_leading_spaces line / indent_width * indent_width
            = indent_width * (count_leading_spaces line / indent_width) := Nat.mul_comm _ _
        omega
      rw [hmod]

theorem token_to_span_total (t : Token) (theme : SyntaxTheme)
    (hb : theme.bracket_colors ≠ []) : ∃ s, token_to_span t theme = some s := by
  cases ht : t.tokenType with
  | Bracket level im =>
      simp only [token_to_span, ht]
      obtain ⟨c, hc, -⟩ := paletteIdx_nonempty theme.bracket_colors hb level
      rw [hc]
      cases im
      · exact ⟨_, rfl⟩
      · exact ⟨_, rfl⟩
  | Keyword =>
      simp only [token_to_span, ht]
      exact ⟨_, rfl⟩
  | String =>
      simp only [token_to_span, ht]
      exact ⟨_, rfl⟩
  | Number =>
      simp only [token_to_span, ht]
      exact ⟨_, rfl⟩
  | Comment =>
      simp only [token_to_span, ht]
      exact ⟨_, rfl⟩
  | Function =>
      simp only [token_to_span, ht]
      exact ⟨_, rfl⟩
  | MacroCall =>
      simp only [token_to_span, ht]
      exact ⟨_, rfl⟩
  | TypeIdent =>
      simp only [token_to_span, ht]
      exact ⟨_, rfl⟩
  | Identifier =>
      simp only [token_to_span, ht]
      exact ⟨_, rfl⟩
  | Operator =>
      simp only [token_to_span, ht]
      exact ⟨_, rfl⟩
  | Symbol =>
      simp only [token_to_span, ht]
      exact ⟨_, rfl⟩
  | Whitespace =>
      simp only [token_to_span, ht]
      exact ⟨_, rfl⟩

theorem spanForToken_total (theme : SyntaxTheme) (li sc : Nat) (um : List (Nat × Nat))
    (t : Token) (hb : theme.bracket_colors ≠ []) :
    ∃ s, spanForToken theme li sc um t = some s := by
  obtain ⟨s0, hs0⟩ := token_to_span_total t theme hb
  unfold spanForToken
  rw [hs0]
  cases ht : t.tokenType with
  | Bracket level im =>
      show ∃ s, (if (!im || um.contains (li, sc + t.start)) = true then
          some (⟨t.content, some theme.unmatched_bracket_fg,
            some theme.unmatched_bracket_bg⟩ : StyledSpan)
        else some s0) = some s
      by_cases hcond : (!im || um.contains (li, sc + t.start)) = true
      · rw [if_pos hcond]
        exact ⟨_, rfl⟩
      · rw [if_neg hcond]
        exact ⟨_, rfl⟩
  | Keyword => exact ⟨s0, rfl⟩
  | String => exact ⟨s0, rfl⟩
  | Number => exact ⟨s0, rfl⟩
  | Comment => exact ⟨s0, rfl⟩
  | Function => exact ⟨s0, rfl⟩
  | MacroCall => exact ⟨s0, rfl⟩
  | TypeIdent => exact ⟨s0, rfl⟩
  | Identifier => exact ⟨s0, rfl⟩
  | Operator => exact ⟨s0, rfl⟩
  | Symbol => exact ⟨s0, rfl⟩
  | Whitespace => exact ⟨s0, rfl⟩

theorem highlight_total (line_str : List Char) (line_idx indent_width : Nat)
    (st : BracketState) (theme : Theme) (um : List (Nat × Nat))
    (hpi : theme.ui.indent_colors ≠ []) (hpb : theme.syntaxTheme.bracket_colors ≠ []) :
    ∃ res, highlight_syntax_with_state line_str line_idx indent_width st theme um
      = some res := by
  unfold highlight_syntax_with_state
  by_cases hnil : line_str = []
  · rw [if_pos hnil]
    exact ⟨_, rfl⟩
  · rw [if_neg hnil]
    have hc := create_indent_spans_eq line_str indent_width theme.ui.indent_colors hpi
    have hd := byteDrop_leading (count_leading_spaces line_str) line_str (le_refl _)
    simp only [hc, hd]
    by_cases hcp : line_str.drop (count_leading_spaces line_str) = []
    · rw [if_pos hcp]
      exact ⟨_, rfl⟩
    · rw [if_neg hcp]
      have ht := tokenize_eq_some (line_str.drop (count_leading_spaces line_str)) line_idx
        (count_leading_spaces line_str) st
      cases htk : tokenizeT (line_str.drop (count_leading_spaces line_str)) line_idx
          (count_leading_spaces line_str) st with
      | mk toks0 st0 =>
          rw [htk] at ht
          simp only [ht]
          obtain ⟨spans, hspans⟩ := optMap_total
            (spanForToken theme.syntaxTheme line_idx (count_leading_spaces line_str) um) toks0
            (fun t _ => spanForToken_total theme.syntaxTheme line_idx
              (count_leading_spaces line_str) um t hpb)
          simp only [hspans]
          exact ⟨_, rfl⟩

theorem takeWhile_spaces_replicate (line : List Char) :
    line.takeWhile (fun ch => ch = ' ')
      = List.replicate (count_leading_spaces line) ' ' := by
  unfold count_leading_spaces
  apply List.eq_replicate_of_mem
  intro b hb
  have := List.mem_takeWhile_imp hb
  simpa using this

theorem join_indent_blocks : ∀ n : Nat,
    ((List.range n).map (fun _ => INDENT_SPACES)).flatten = List.replicate (4 * n) ' ' := by
  intro n
  induction n with
  | zero => simp
  | succ n ih =>
      rw [List.range_succ, List.map_append, List.flatten_append, ih]
      have h1 : ([n].map (fun _ => INDENT_SPACES)).flatten = List.replicate 4 ' ' := rfl
      rw [h1, show 4 * (n + 1) = 4 * n + 4 by ring, List.replicate_add]

theorem indentSpansSpec_reconstruct (line : List Char) (palette : List RColor) :
    ((indentSpansSpec line 4 palette).map StyledSpan.text).flatten
      = line.takeWhile (fun ch => ch = ' ') := by
  rw [takeWhile_spaces_replicate]
  unfold indentSpansSpec
  by_cases h0 : (4 : Nat) = 0 ∨ count_leading_spaces line = 0
  · rcases h0 with h | h
    · omega
    · rw [if_pos (Or.inr h), h]
      rfl
  · rw [if_neg h0]
    have hsc : count_leading_spaces line ≠ 0 := by
      intro h
      exact h0 (Or.inr h)
    rw [List.map_append, List.flatten_append]
    have hfirst : ((List.range (count_leading_spaces line / 4)).map
          (fun i => (⟨INDENT_SPACES, none, palette.get? (i % palette.length)⟩ : StyledSpan))).map
          StyledSpan.text
        = (List.range (count_leading_spaces line / 4)).map (fun _ => INDENT_SPACES) := by
      rw [List.map_map]
      rfl
    rw [hfirst, join_indent_blocks]
    have hdm := Nat.div_add_mod (count_leading_spaces line) 4
    by_cases hrem : count_leading_spaces line % 4 = 0
    · rw [if_pos hrem]
      show List.replicate (4 * (count_leading_spaces line / 4)) ' ' ++ [] = _
      rw [List.append_nil]
      congr 1
      omega
    · rw [if_neg hrem]
      simp only [List.map_cons, List.map_nil, List.flatten_cons, List.flatten_nil,
        List.append_nil]
      rw [← List.replicate_add, show 4 * (count_leading_spaces line / 4)
        + count_leading_spaces line % 4 = count_leading_spaces line from by omega]

/-! ## The claims -/

/-- C1: for every buffer, the whole-buffer scan's unmatched-position set
contains exactly the (line, absolute column) of every closing-bracket token
emitted with `is_matched = false` during the scan plus the (line, column)
of every entry still on the bracket stack after the last line; scanning
["if true {", "    x();", "}"] leaves the stack empty after line 2 and adds
no position to the unmatched set. -/
theorem C1_scan_unmatched_set :
    (∀ buffer : List (List Char), ∃ r, scanBuffer buffer = some r ∧
      (∀ p, p ∈ r.unmatched ↔
        ((∃ i line, buffer.get? i = some line ∧
           ∃ t, t ∈ (lineStep i (stateBefore buffer i) line).1 ∧
             isUnmatchedClose t = true ∧
             p = (i, count_leading_spaces line + t.start)) ∨
         (∃ e, e ∈ (stateBefore buffer buffer.length).stack ∧
           p = (e.2.1, e.2.2))))) ∧
    ((scanBuffer [ String.data "if true \x7b", String.data "    x();",
        String.data "\x7d" ]).map (fun r => (r.final.stack, r.unmatched))
      = some ([], [])) := by
  constructor
  · intro buffer
    obtain ⟨r, heq, -, -, -, -, -, hmem⟩ := scanBuffer_spec buffer
    exact ⟨r, heq, hmem⟩
  · decide

/-- Witness for C1 at the one-line buffer [")"]: the stray close bracket's
position (0, 0) is in the unmatched set. -/
theorem C1_witness :
    ∃ r, scanBuffer [ [ ')' ] ] = some r ∧ (0, 0) ∈ r.unmatched := by
  obtain ⟨r, heq, hmem⟩ := C1_scan_unmatched_set.1 [ [ ')' ] ]
  refine ⟨r, heq, ?_⟩
  rw [hmem]
  left
  exact ⟨0, [ ')' ], rfl, ⟨[ ')' ], TokenType.Bracket 0 false, 0, 1⟩,
    by decide, by decide, by decide⟩

/-- C2: for every input and starting state, the tokenizer returns an
ordered, gap-free, non-overlapping token sequence — the first token starts
at byte offset 0, each token spans exactly the UTF-8 length of its content,
each subsequent token starts where the previous one ends, the last token
ends at the input's byte length — and concatenating all contents
reconstructs the input exactly (empty input gives the empty sequence). -/
theorem C2_tokenize_reconstruction (content : List Char) (lineIdx colOff : Nat)
    (st : BracketState) :
    ∃ toks st2, tokenize_with_state content lineIdx colOff st = some (toks, st2) ∧
      (toks.map Token.content).flatten = content ∧
      (toks.head?.map Token.start).getD 0 = 0 ∧
      List.Chain' (fun a b => b.start = a.endPos) toks ∧
      (∀ t ∈ toks, t.endPos = t.start + utf8Len t.content) ∧
      (toks.getLast?.map Token.endPos).getD (utf8Len content) = utf8Len content ∧
      (content = [] → toks = []) := by
  obtain ⟨toks, st2, heq, hjoin, hwf, -, hemp⟩ :=
    tokenize_with_state_spec content lineIdx colOff st
  obtain ⟨hhead, hchain, hall, hlast⟩ := tokensWF_props toks 0 (utf8Len content) hwf
  exact ⟨toks, st2, heq, hjoin, by simpa using hhead, hchain, hall, hlast, hemp⟩

/-- Witness for C2 at the input "a(". -/
theorem C2_witness :
    ∃ toks st2, tokenize_with_state [ 'a', '(' ] 0 0 BracketState.new
        = some (toks, st2) ∧ (toks.map Token.content).flatten = [ 'a', '(' ] := by
  obtain ⟨toks, st2, heq, hjoin, -, -, -, -, -⟩ :=
    C2_tokenize_reconstruction [ 'a', '(' ] 0 0 BracketState.new
  exact ⟨toks, st2, heq, hjoin⟩

/-- C3: the per-line cache built by the whole-buffer scan has length
buffer + 1, slot i holds the running state immediately before line i was
scanned (slot 0 the empty state), and re-running the tokenizer on line i
from the cached slot i produces exactly the token sequence line i produced
during the sequential scan (the embedding is purely functional, so the
canonical running state is never mutated by a replay). -/
theorem C3_cache_replay (buffer : List (List Char)) :
    ∃ r, scanBuffer buffer = some r ∧
      r.states.length = buffer.length + 1 ∧
      r.states.get? 0 = some BracketState.new ∧
      (∀ i, i ≤ buffer.length → r.states.get? i = some (stateBefore buffer i)) ∧
      (∀ i line st0, buffer.get? i = some line → r.states.get? i = some st0 →
         r.lineTokens.get? i
           = some (tokenizeT (line.drop (count_leading_spaces line)) i
               (count_leading_spaces line) st0).1) := by
  obtain ⟨r, heq, hfin, hslen, hllen, hstates, hltoks, hmem⟩ := scanBuffer_spec buffer
  refine ⟨r, heq, hslen, ?_, hstates, ?_⟩
  · exact hstates 0 (Nat.zero_le _)
  · intro i line st0 hline hst0
    have hlt : i < buffer.length := by
      obtain ⟨hlt, -⟩ := List.get?_eq_some.mp hline
      exact hlt
    have h1 := hstates i (Nat.le_of_lt hlt)
    rw [h1] at hst0
    have hst : st0 = stateBefore buffer i := (Option.some_inj.mp hst0).symm
    subst hst
    have h2 := hltoks i line hline
    simpa [lineStep] using h2

/-- Witness for C3 at the one-line buffer ["a"]. -/
theorem C3_witness :
    ∃ r, scanBuffer [ [ 'a' ] ] = some r ∧
      r.states.get? 1 = some (stateBefore [ [ 'a' ] ] 1) := by
  obtain ⟨r, heq, -, -, hstates, -⟩ := C3_cache_replay [ [ 'a' ] ]
  exact ⟨r, heq, hstates 1 (by decide)⟩

/-- C4: at a closing bracket, if the stack's top entry holds the
corresponding opener the tokenizer pops it and emits `Bracket` with
`is_matched = true` and level the stack length after the pop; otherwise the
stack is left completely unchanged and it emits `Bracket` with
`is_matched = false` and level the current stack length.  Tokenizing "())"
from an empty state flags exactly the second `)` as unmatched. -/
theorem C4_close_bracket (pos : Nat) (st : BracketState) (c : Char)
    (hc : c = ')' ∨ c = ']' ∨ c = '}') :
    (∃ exp, expected_open c = some exp ∧
      (st.stack = [] →
        tokenize_close_bracket pos st c
          = some (⟨[c], TokenType.Bracket st.stack.length false, pos, pos + 1⟩, st)) ∧
      (∀ b l col tl, st.stack = (b, l, col) :: tl → b = exp →
        tokenize_close_bracket pos st c
          = some (⟨[c], TokenType.Bracket tl.length true, pos, pos + 1⟩, ⟨tl⟩)) ∧
      (∀ b l col tl, st.stack = (b, l, col) :: tl → b ≠ exp →
        tokenize_close_bracket pos st c
          = some (⟨[c], TokenType.Bracket st.stack.length false, pos, pos + 1⟩, st))) ∧
    ((tokenize_with_state [ '(', ')', ')' ] 0 0 BracketState.new).map
        (fun r => r.1.map Token.tokenType)
      = some [TokenType.Bracket 0 true, TokenType.Bracket 0 true,
              TokenType.Bracket 0 false]) := by
  constructor
  · obtain ⟨e, he⟩ : ∃ e, expected_open c = some e := by
      rcases hc with h | h | h <;> subst h <;> exact ⟨_, rfl⟩
    refine ⟨e, he, ?_, ?_, ?_⟩
    · intro hst
      unfold tokenize_close_bracket
      rw [he, hst]
      rfl
    · intro b l col tl hst hb
      subst hb
      unfold tokenize_close_bracket
      rw [he, hst]
      simp
    · intro b l col tl hst hb
      unfold tokenize_close_bracket
      rw [he, hst]
      simp [hb]
  · decide

/-- Witness for C4: a `)` closing a stack whose top is `(` pops it. -/
theorem C4_witness :
    tokenize_close_bracket 0 ⟨[ ('(', 0, 0) ]⟩ ')'
      = some (⟨[ ')' ], TokenType.Bracket 0 true, 0, 1⟩, ⟨[]⟩) := by
  obtain ⟨⟨exp, hexp, hnil, hpop, hkeep⟩, -⟩ :=
    C4_close_bracket 0 ⟨[ ('(', 0, 0) ]⟩ ')' (Or.inl rfl)
  have hexp2 : exp = '(' := by
    rw [show expected_open ')' = some '(' from rfl] at hexp
    exact (Option.some_inj.mp hexp).symm
  exact hpop '(' 0 0 [] rfl (by rw [hexp2])

/-- C5 counterexample: the claim that full-block spans are "exactly
indent_width spaces wide" with reconstruction of the leading run fails at
indent_width = 2 on a line with two leading spaces — the single full-block
span is the four-space `INDENT_SPACES` constant, so its width is not 2 and
the concatenated span text is not the two-space leading run. -/
theorem C5_counterexample :
    create_indent_spans [ ' ', ' ', 'x' ] 2 defaultUiTheme.indent_colors
      = some [⟨INDENT_SPACES, none, some (RColor.rgb 60 50 50)⟩] ∧
    INDENT_SPACES.length ≠ 2 ∧
    ¬ ((([⟨INDENT_SPACES, none, some (RColor.rgb 60 50 50)⟩] : List StyledSpan).map
        StyledSpan.text).flatten = [ ' ', ' ' ]) := by decide

/-- C5 (amended): `create_indent_spans` emits
floor(count / indent_width) full-block spans, each the constant four-space
`INDENT_SPACES` string (not indent_width spaces), with background colors
cycling through the palette by block index, followed — when
count mod indent_width > 0 — by one unstyled span of the remaining spaces;
the result is empty when indent_width = 0 or count = 0, and concatenating
the span texts reproduces the leading-space run exactly when
indent_width = 4. -/
theorem C5_amended_indent_spans (line : List Char) (indent_width : Nat)
    (palette : List RColor) (hp : palette ≠ []) :
    create_indent_spans line indent_width palette
      = some (indentSpansSpec line indent_width palette) ∧
    (indent_width = 4 →
      ((indentSpansSpec line indent_width palette).map StyledSpan.text).flatten
        = line.takeWhile (fun ch => ch = ' ')) := by
  refine ⟨create_indent_spans_eq line indent_width palette hp, ?_⟩
  intro h4
  subst h4
  exact indentSpansSpec_reconstruct line palette

/-- Witness for C5 (amended) at indent_width 4 on a five-space indent. -/
theorem C5_witness :
    create_indent_spans [ ' ', ' ', ' ', ' ', ' ', 'x' ] 4 [ RColor.rgb 1 2 3 ]
      = some [⟨INDENT_SPACES, none, some (RColor.rgb 1 2 3)⟩, ⟨[ ' ' ], none, none⟩] := by
  have h := (C5_amended_indent_spans [ ' ', ' ', ' ', ' ', ' ', 'x' ] 4
    [ RColor.rgb 1 2 3 ] (by decide)).1
  exact h.trans (by decide)

/-- C6 counterexample: an identifier separated from `(` by a space is NOT
classified Function — `classify_word` receives the character immediately
after the run without skipping whitespace, so "foo (" classifies `foo` as
Identifier. -/
theorem C6_counterexample :
    ((tokenize_with_state ( String.data "foo (" ) 0 0 BracketState.new).map
        (fun r => r.1.map (fun t => (t.content, t.tokenType)))
      = some [( String.data "foo", TokenType.Identifier),
              ([ ' ' ], TokenType.Whitespace), ([ '(' ], TokenType.Bracket 0 true)]) ∧
    TokenType.Identifier ≠ TokenType.Function := by decide

/-- C6 (amended): an identifier-run token is classified Function exactly
when the run is not in the keyword set and the character immediately
following the run is `(` with no intervening characters — there is no
whitespace skipping, so an identifier separated from `(` by spaces is never
classified Function, and the `!` override cannot apply in the Function
case. -/
theorem C6_amended_function_rule (pos : Nat) (c : Char) (cs : List Char) :
    (tokenize_identifier pos c cs).1.tokenType = TokenType.Function ↔
      (RUST_KEYWORDS.contains ((c :: cs).takeWhile isWordChar) = false ∧
       ((c :: cs).dropWhile isWordChar).head? = some '(') := by
  unfold tokenize_identifier
  by_cases hb : ((c :: cs).dropWhile isWordChar).head? = some '!'
  · rw [if_pos hb]
    constructor
    · intro h
      have h2 : TokenType.MacroCall = TokenType.Function := h
      exact absurd h2 (by decide)
    · rintro ⟨-, hpar⟩
      rw [hb] at hpar
      exact absurd hpar (by decide)
  · rw [if_neg hb]
    show classify_word ((c :: cs).takeWhile isWordChar)
        ((c :: cs).dropWhile isWordChar).head? = TokenType.Function ↔ _
    unfold classify_word
    by_cases hkw : RUST_KEYWORDS.contains ((c :: cs).takeWhile isWordChar) = true
    · rw [if_pos hkw]
      constructor
      · intro h
        exact absurd h (by decide)
      · rintro ⟨hk, -⟩
        rw [hkw] at hk
        exact absurd hk (by decide)
    · rw [if_neg hkw]
      have hkw2 : RUST_KEYWORDS.contains ((c :: cs).takeWhile isWordChar) = false := by
        cases h : RUST_KEYWORDS.contains ((c :: cs).takeWhile isWordChar)
        · rfl
        · exact absurd h hkw
      by_cases hpar : ((c :: cs).dropWhile isWordChar).head? = some '('
      · rw [if_pos hpar]
        exact ⟨fun _ => ⟨hkw2, hpar⟩, fun _ => rfl⟩
      · rw [if_neg hpar]
        constructor
        · intro h
          by_cases hup : ((((c :: cs).takeWhile isWordChar).head?.map
              Char.isUpper).getD false) = true
          · rw [if_pos hup] at h
            exact absurd h (by decide)
          · rw [if_neg hup] at h
            exact absurd h (by decide)
        · rintro ⟨-, hp⟩
          exact absurd hp hpar

/-- Witness for C6 (amended): "foo(" is classified Function, and the
space-separated "foo (" is not. -/
theorem C6_witness :
    (tokenize_identifier 0 'f' [ 'o', 'o', '(' ]).1.tokenType = TokenType.Function ∧
    ¬ (tokenize_identifier 0 'f' [ 'o', 'o', ' ', '(' ]).1.tokenType
        = TokenType.Function := by
  constructor
  · exact (C6_amended_function_rule 0 'f' [ 'o', 'o', '(' ]).mpr ⟨by decide, by decide⟩
  · intro h
    have h2 := (C6_amended_function_rule 0 'f' [ 'o', 'o', ' ', '(' ]).mp h
    exact absurd h2.2 (by decide)

/-- C7 counterexample: `~` matches none of the scanning rules 1-10 of the
spec (it is not in the claimed punctuation set either), yet the tokenizer
emits it as Symbol, not Identifier — the fallback arm is `tokenize_symbol`
and there is no Identifier fallback. -/
theorem C7_counterexample :
    ((tokenize_with_state [ '~' ] 0 0 BracketState.new).map
        (fun r => r.1.map (fun t => (t.content, t.tokenType)))
      = some [([ '~' ], TokenType.Symbol)]) ∧
    TokenType.Symbol ≠ TokenType.Identifier := by decide

/-- C7 (amended): every single character that matches none of the earlier
scanning rules (comment start, quote, apostrophe, bracket, ASCII digit,
identifier character, whitespace, `::`) is emitted by the fallback arm as a
one-character Symbol token — the code has no distinguished punctuation set
and no Identifier fallback. -/
theorem C7_amended_symbol_fallback (lineIdx colOff pos : Nat) (st : BracketState)
    (c : Char) (cs : List Char)
    (h1 : ¬(c = '/' ∧ cs.head? = some '/')) (h2 : ¬ c = '"') (h3 : ¬ c = '\'')
    (h4 : ¬(c = '(' ∨ c = '[' ∨ c = '{')) (h5 : ¬(c = ')' ∨ c = ']' ∨ c = '}'))
    (h6 : ¬ c.isDigit = true) (h7 : ¬ isWordChar c = true)
    (h8 : ¬ rustIsWhitespace c = true) (h9 : ¬(c = ':' ∧ cs.head? = some ':')) :
    nextToken lineIdx colOff pos st c cs = some (tokenize_symbol pos c, st, cs) := by
  unfold nextToken
  rw [if_neg h1, if_neg h2, if_neg h3, if_neg h4, if_neg h5, if_neg h6, if_neg h7,
    if_neg h8, if_neg h9]

/-- Witness for C7 (amended) at `~`. -/
theorem C7_witness :
    nextToken 0 0 0 BracketState.new '~' []
      = some (tokenize_symbol 0 '~', BracketState.new, []) :=
  C7_amended_symbol_fallback 0 0 0 BracketState.new '~' [] (by decide) (by decide)
    (by decide) (by decide) (by decide) (by decide) (by decide) (by decide) (by decide)

/-- C8: a line whose bracket characters all sit inside string literals or
at/after a `//` comment produces no Bracket token and leaves the bracket
stack exactly as it was — in general, whenever the tokenizer emits no
Bracket token the final state equals the initial one, and on the concrete
line `"(" // )` (for every starting state) no Bracket token is produced and
the state is returned unchanged. -/
theorem C8_suppression_frame :
    (∀ (content : List Char) (lineIdx colOff : Nat) (st : BracketState) toks st2,
       tokenize_with_state content lineIdx colOff st = some (toks, st2) →
       (∀ t ∈ toks, isBracketKind t.tokenType = false) → st2 = st) ∧
    (∀ st : BracketState,
       ∃ toks, tokenize_with_state [ '"', '(', '"', ' ', '/', '/', ' ', ')' ] 0 0 st
           = some (toks, st) ∧
         toks.all (fun t => !isBracketKind t.tokenType) = true) := by
  constructor
  · intro content lineIdx colOff st toks st2 heq hall
    obtain ⟨toks2, st3, heq2, -, -, hframe, -⟩ :=
      tokenize_with_state_spec content lineIdx colOff st
    rw [heq] at heq2
    have hp := Option.some_inj.mp heq2
    have ht : toks = toks2 := congrArg Prod.fst hp
    have hs : st2 = st3 := congrArg Prod.snd hp
    subst ht
    rw [hs]
    exact hframe hall
  · intro st
    exact ⟨_, rfl, rfl⟩

/-- Witness for C8 on the line "x" from the empty state. -/
theorem C8_witness : BracketState.new = BracketState.new :=
  C8_suppression_frame.1 [ 'x' ] 0 0 BracketState.new
    [⟨[ 'x' ], TokenType.Identifier, 0, 1⟩] BracketState.new (by decide) (by decide)

/-- C9: an identifier run whose immediately next character is `!` consumes
the `!` into the token's content and is classified Macro, and this takes
precedence over the Function rule: "foo()" gives `foo` as Function while
"foo!()" gives a single `foo!` token classified Macro. -/
theorem C9_macro_precedence :
    (∀ (pos : Nat) (c : Char) (cs : List Char),
       ((c :: cs).dropWhile isWordChar).head? = some '!' →
       (tokenize_identifier pos c cs).1.content
           = (c :: cs).takeWhile isWordChar ++ [ '!' ] ∧
       (tokenize_identifier pos c cs).1.tokenType = TokenType.MacroCall) ∧
    ((tokenize_with_state ( String.data "foo()" ) 0 0 BracketState.new).map
        (fun r => r.1.map (fun t => (t.content, t.tokenType)))
      = some [( String.data "foo", TokenType.Function),
              ([ '(' ], TokenType.Bracket 0 true),
              ([ ')' ], TokenType.Bracket 0 true)]) ∧
    ((tokenize_with_state ( String.data "foo!()" ) 0 0 BracketState.new).map
        (fun r => r.1.map (fun t => (t.content, t.tokenType)))
      = some [( String.data "foo!", TokenType.MacroCall),
              ([ '(' ], TokenType.Bracket 0 true),
              ([ ')' ], TokenType.Bracket 0 true)]) := by
  refine ⟨?_, by decide, by decide⟩
  intro pos c cs hb
  unfold tokenize_identifier
  rw [if_pos hb]
  exact ⟨rfl, rfl⟩

/-- Witness for C9 on the run "foo" followed directly by "!". -/
theorem C9_witness :
    (tokenize_identifier 0 'f' [ 'o', 'o', '!' ]).1.content = [ 'f', 'o', 'o', '!' ] ∧
    (tokenize_identifier 0 'f' [ 'o', 'o', '!' ]).1.tokenType = TokenType.MacroCall := by
  have h := C9_macro_precedence.1 0 'f' [ 'o', 'o', '!' ] (by decide)
  exact ⟨h.1.trans (by decide), h.2⟩

/-- C10: the exposed operations are total — the tokenizer always returns a
result (the `unreachable!()` arm of the close-bracket handler is never
reached), `create_indent_spans` with the default theme always returns spans
(the palette indexing and the leading-space byte slice cannot panic), and
`highlight_syntax_with_state` with the default theme always returns a
result, for every input string, index, width, state and unmatched set. -/
theorem C10_totality :
    (∀ (content : List Char) (lineIdx colOff : Nat) (st : BracketState),
       (tokenize_with_state content lineIdx colOff st).isSome = true) ∧
    (∀ (line : List Char) (indent_width : Nat),
       (create_indent_spans line indent_width defaultUiTheme.indent_colors).isSome
         = true) ∧
    (∀ (line : List Char) (line_idx indent_width : Nat) (st : BracketState)
       (um : List (Nat × Nat)),
       (highlight_syntax_with_state line line_idx indent_width st defaultTheme
         um).isSome = true) := by
  refine ⟨?_, ?_, ?_⟩
  · intro content lineIdx colOff st
    rw [tokenize_eq_some]
    rfl
  · intro line indent_width
    rw [create_indent_spans_eq line indent_width defaultUiTheme.indent_colors (by decide)]
    rfl
  · intro line line_idx indent_width st um
    obtain ⟨res, hres⟩ := highlight_total line line_idx indent_width st defaultTheme um
      (by decide) (by decide)
    rw [hres]
    rfl
